import Mathlib

/-!
# Pump Web Aggregator — verified shallow embedding

Shallow embedding of the ingestion / normalization / fan-out core of the
pump-web-aggregator repository (`src/server.js`, `src/unnamed/part_000`,
`src/unnamed/part_001`).  JavaScript strings become `String`, finite JS
numbers become `ℚ` (with a separate constructor for NaN / ±Infinity, the
values `Number.isFinite` rejects), JS `Map` becomes an insertion-ordered
association list with `Map.set` update-in-place semantics, JS `Set` becomes
an insertion-ordered duplicate-free list, and the mutable module state is
threaded explicitly through the handlers.
-/

/-- Result of coercing a JS payload value with `Number(v)`: either a finite
number, or a value `Number.isFinite` rejects (NaN, ±Infinity, unparsable). -/
inductive NumVal where
  | fin (q : ℚ)
  | nonfinite
deriving DecidableEq

/-- Loosely-typed inbound JSON record.  One optional field per upstream key
consumed anywhere in the source; an absent key is `none`.  `metaName` and
`metaSymbol` model the nested `msg.meta?.name` / `msg.meta?.symbol`
accesses of `pickName` / `pickSymbol`; `fromF` models the key `from`
(a Lean keyword). -/
structure Record where
  mint : Option String := none
  tokenAddress : Option String := none
  ca : Option String := none
  address : Option String := none
  trader : Option String := none
  traderPublicKey : Option String := none
  owner : Option String := none
  user : Option String := none
  deployer : Option String := none
  fromF : Option String := none
  wallet : Option String := none
  name : Option String := none
  tokenName : Option String := none
  symbol : Option String := none
  ticker : Option String := none
  metaName : Option String := none
  metaSymbol : Option String := none
  txType : Option String := none
  type : Option String := none
  event : Option String := none
  side : Option String := none
  direction : Option String := none
  tradeType : Option String := none
  solAmount : Option NumVal := none
  sol : Option NumVal := none
  amountSol : Option NumVal := none
  amount : Option NumVal := none
deriving DecidableEq

/-- JS `a || b` for a possibly-absent string `a`: absent and `""` are falsy. -/
def jsOr (v : Option String) (dflt : String) : String :=
  match v with
  | none => dflt
  | some s => if s = "" then dflt else s

/-- JS `a || b` on two strings: `""` is falsy. -/
def jsOrS (a b : String) : String :=
  if a = "" then b else a

/-- JS `a && b` on two strings: `""` is falsy and short-circuits. -/
def jsAnd (a b : String) : String :=
  if a = "" then "" else b

/-- JS `String.prototype.trim`: strip leading and trailing whitespace. -/
def jsTrim (s : String) : String :=
  ⟨((s.toList.dropWhile Char.isWhitespace).reverse.dropWhile
      Char.isWhitespace).reverse⟩

/-- JS `String.prototype.toLowerCase` (ASCII range, like `Char.toLower`). -/
def jsToLower (s : String) : String :=
  ⟨s.toList.map Char.toLower⟩

/-- JS `a ?? b` for a possibly-absent number: only absence falls through. -/
def jsCoalesce (v : Option NumVal) (dflt : NumVal) : NumVal :=
  match v with
  | none => dflt
  | some x => x

/-- `safeNum` of `server.js`: `Number.isFinite(n) ? n : fallback`. -/
def safeNum (v : NumVal) (fallback : ℚ) : ℚ :=
  match v with
  | .fin n => n
  | .nonfinite => fallback

/-- `pickMint` of `part_000`:
`msg.mint || msg.tokenAddress || msg.ca || msg.address || ""`. -/
def pickMint (msg : Record) : String :=
  jsOr msg.mint (jsOr msg.tokenAddress (jsOr msg.ca (jsOr msg.address "")))

/-- `pickTrader` of `part_000`. -/
def pickTrader (msg : Record) : String :=
  jsOr msg.trader (jsOr msg.traderPublicKey (jsOr msg.owner
    (jsOr msg.user (jsOr msg.deployer (jsOr msg.fromF "")))))

/-- `pickSol` of `part_000`:
`Number(msg.solAmount ?? msg.sol ?? msg.amountSol ?? msg.amount ?? 0)`,
with non-finite results coerced to 0. -/
def pickSol (msg : Record) : ℚ :=
  let v := jsCoalesce msg.solAmount (jsCoalesce msg.sol
    (jsCoalesce msg.amountSol (jsCoalesce msg.amount (.fin 0))))
  match v with
  | .fin n => n
  | .nonfinite => 0

/-- `pickName` of `part_000`: `msg.name || msg.tokenName || msg.meta?.name || ""`. -/
def pickName (msg : Record) : String :=
  jsOr msg.name (jsOr msg.tokenName (jsOr msg.metaName ""))

/-- `pickSymbol` of `part_000`: `msg.symbol || msg.ticker || msg.meta?.symbol || ""`. -/
def pickSymbol (msg : Record) : String :=
  jsOr msg.symbol (jsOr msg.ticker (jsOr msg.metaSymbol ""))

/-- Value stored in the `mintMeta` JS `Map`: `{ name, symbol }`. -/
structure MetaEntry where
  name : String
  symbol : String
deriving DecidableEq

/-- JS `Map.get`: first (unique) binding of the key, if any. -/
def lookupMap (m : List (String × MetaEntry)) (k : String) : Option MetaEntry :=
  match m with
  | [] => none
  | (k', v) :: rest => if k' = k then some v else lookupMap rest k

/-- JS `Map.set`: replaces the value of an existing key in place (the key
keeps its original position in insertion order), otherwise appends. -/
def mapSet (m : List (String × MetaEntry)) (k : String) (v : MetaEntry) :
    List (String × MetaEntry) :=
  match m with
  | [] => [(k, v)]
  | (k', v') :: rest =>
    if k' = k then (k, v) :: rest else (k', v') :: mapSet rest k v

/-- `rememberMeta` of `part_000`: merge-on-write upsert into `mintMeta`.
`next.name = (name && name.trim()) || prev.name || ""` and likewise for
`symbol`; the entry is written only when at least one field is non-empty. -/
def rememberMeta (meta : List (String × MetaEntry)) (mint name symbol : String) :
    List (String × MetaEntry) :=
  if mint = "" then meta
  else
    let prev := (lookupMap meta mint).getD ⟨"", ""⟩
    let nextName := jsOrS (jsAnd name (jsTrim name)) (jsOrS prev.name "")
    let nextSymbol := jsOrS (jsAnd symbol (jsTrim symbol)) (jsOrS prev.symbol "")
    if nextName = "" ∧ nextSymbol = "" then meta
    else mapSet meta mint ⟨nextName, nextSymbol⟩

/-- `getMeta` of `part_000`: `mintMeta.get(mint) || { name: "", symbol: "" }`. -/
def getMeta (meta : List (String × MetaEntry)) (mint : String) : MetaEntry :=
  (lookupMap meta mint).getD ⟨"", ""⟩

/-- Canonical normalized row.  `side` is `""` on create rows (the JS create
object simply has no `side` key); `t` is the `Date.now()` value passed in by
the caller; `raw` retains the inbound record. -/
structure Event where
  kind : String
  t : Nat
  mint : String
  trader : String
  side : String
  sol : ℚ
  name : String
  symbol : String
  raw : Record
deriving DecidableEq

/-- `normCreate` of `part_000`: normalizes a create message and first upserts
its own name/symbol into the metadata cache (returns the updated cache). -/
def normCreate (meta : List (String × MetaEntry)) (now : Nat) (msg : Record) :
    List (String × MetaEntry) × Event :=
  let mint := pickMint msg
  let name := pickName msg
  let symbol := pickSymbol msg
  let meta' := rememberMeta meta mint name symbol
  (meta',
    { kind := "create", t := now, mint, trader := pickTrader msg, side := "",
      sol := pickSol msg, name, symbol, raw := msg })

/-- `normTrade` of `part_000`: normalizes a trade message, filling a missing
name/symbol from the metadata cache, then writes any name/symbol the trade
itself carried back into the cache. -/
def normTrade (meta : List (String × MetaEntry)) (now : Nat) (msg : Record) :
    List (String × MetaEntry) × Event :=
  let mint := pickMint msg
  let side := jsToLower (jsOr msg.txType (jsOr msg.side (jsOr msg.tradeType "")))
  let m := getMeta meta mint
  let name := jsOrS (pickName msg) (jsOrS m.name "")
  let symbol := jsOrS (pickSymbol msg) (jsOrS m.symbol "")
  let meta' := rememberMeta meta mint name symbol
  (meta',
    { kind := "trade", t := now, mint, trader := pickTrader msg, side,
      sol := pickSol msg, name, symbol, raw := msg })

/-- `pushCache` of `server.js` / `part_000` / `part_001`:
`cachedRows.push(row); if (cachedRows.length > CACHE_LIMIT) cachedRows.shift()`. -/
def pushCache (limit : Nat) (cache : List Event) (row : Event) : List Event :=
  let c := cache ++ [row]
  if limit < c.length then c.tail else c

/-- JS `cachedRows.slice(-n)` (the snapshot sent to a newly attached
subscriber): the last `n` entries; `slice(-0)` is `slice(0)`, the whole list. -/
def snapshotSlice (cache : List Event) (n : Nat) : List Event :=
  if n = 0 then cache else cache.drop (cache.length - n)

/-- The `while (subscribedTradeQueue.length > TRADE_SUB_LIMIT)` loop of
`maybeSubscribeTrade`: shift the oldest mint off the queue and delete it
from the tracked set until the queue is back at the limit. -/
def enforceCap (limit : Nat) (mints queue : List String) :
    List String × List String :=
  if limit < queue.length then
    match queue with
    | [] => (mints, queue)
    | oldest :: rest => enforceCap limit (mints.erase oldest) rest
  else (mints, queue)
termination_by queue.length
decreasing_by simp_all

/-- `maybeSubscribeTrade` of `server.js` (identical in `part_000` /
`part_001`): no-op on an empty or already-tracked mint, otherwise append to
the tracked set and FIFO queue and enforce the cap.  State is the pair
(`subscribedTradeMints` as an insertion-ordered list, `subscribedTradeQueue`). -/
def maybeSubscribeTrade (limit : Nat) (st : List String × List String)
    (mint : String) : List String × List String :=
  if mint = "" then st
  else if mint ∈ st.1 then st
  else enforceCap limit (st.1 ++ [mint]) (st.2 ++ [mint])

/-- The tracking decision as invoked by the pipeline: the caller gates
`maybeSubscribeTrade` on `row.sol >= MIN_SOL_CREATE_TO_TRACK`
(`server.js` line 206, `part_000` line 239, `part_001` line 172).  This is
the spec's `maybeTrack(mint, creationSolAmount, minSolThreshold)`. -/
def maybeTrack (limit : Nat) (threshold : ℚ) (st : List String × List String)
    (mint : String) (sol : ℚ) : List String × List String :=
  if threshold ≤ sol then maybeSubscribeTrade limit st mint else st

/-- Configuration constants read from the environment at startup. -/
structure Config where
  cacheLimit : Nat
  tradeSubLimit : Nat
  minSolCreateToTrack : ℚ

/-- Mutable module state of `part_000`: the rolling row cache, the trade
subscription tracker (set plus FIFO queue), and the metadata cache. -/
structure ServerState where
  cachedRows : List Event
  sub : List String × List String
  mintMeta : List (String × MetaEntry)
deriving DecidableEq

/-- The `upstream.on("message")` handler of `part_000` (lines 214-245).
The frame is already the result of `JSON.parse` (`none` on parse failure,
which makes the handler return at once).  The returned list is the rows
handed to `broadcast`. -/
def handleMessage (cfg : Config) (st : ServerState) (now : Nat)
    (frame : Option Record) : ServerState × List Event :=
  match frame with
  | none => (st, [])
  | some msg =>
    let isTrade := msg.txType.isSome || msg.type == some "trade" ||
      msg.event == some "trade"
    if isTrade then
      let (meta', row) := normTrade st.mintMeta now msg
      ({ cachedRows := pushCache cfg.cacheLimit st.cachedRows row,
         sub := st.sub, mintMeta := meta' }, [row])
    else
      let (meta', row) := normCreate st.mintMeta now msg
      let sub' := maybeTrack cfg.tradeSubLimit cfg.minSolCreateToTrack
        st.sub row.mint row.sol
      ({ cachedRows := pushCache cfg.cacheLimit st.cachedRows row,
         sub := sub', mintMeta := meta' }, [row])

/-- Downstream subscriber handle: identity, whether `readyState` is
`WebSocket.OPEN`, and whether `send` throws on it. -/
structure Client where
  id : Nat
  readyStateOpen : Bool
  sendFails : Bool
deriving DecidableEq

/-- Envelope written to a subscriber: `JSON.stringify({ type: "row", row })`,
kept structured in the model. -/
structure Envelope where
  type : String
  row : Event
deriving DecidableEq

/-- The `for (const client of downstreamClients)` loop of `broadcast`
(`server.js` lines 49-58): skip handles whose `readyState` is not OPEN, and
swallow send exceptions with `try { client.send(msg) } catch {}` — the loop
continues either way.  Returns the ids that actually received the message. -/
def broadcastLoop : List Client → List Nat
  | [] => []
  | c :: rest =>
    if c.readyStateOpen then
      if c.sendFails then broadcastLoop rest
      else c.id :: broadcastLoop rest
    else broadcastLoop rest

/-- `broadcast` of `server.js`: serializes the envelope once, runs the send
loop, and never mutates `downstreamClients` (the set after the call, and the
deliveries each carrying the single serialized envelope). -/
def broadcastClients (clients : List Client) (row : Event) :
    List Client × List (Nat × Envelope) :=
  let msg : Envelope := ⟨"row", row⟩
  (clients, (broadcastLoop clients).map (fun i => (i, msg)))

/-- The `ws.on("close")` / `ws.on("error")` handlers
(`server.js` lines 243-244): `downstreamClients.delete(ws)`. -/
def onCloseClient (clients : List Client) (c : Client) : List Client :=
  clients.erase c

/-! ## Helper lemmas -/

theorem jsOrS_empty_right (x : String) : jsOrS x "" = x := by
  by_cases h : x = "" <;> simp [jsOrS, h]

theorem jsOrS_idem (a b : String) : jsOrS a (jsOrS a b) = jsOrS a b := by
  by_cases h : a = "" <;> simp [jsOrS, h]

theorem jsOrS_of_ne (a b : String) (h : a ≠ "") : jsOrS a b = a := by
  simp [jsOrS, h]

theorem jsAnd_trim_of_trim_ne (n : String) (h : jsTrim n ≠ "") :
    jsAnd n (jsTrim n) = jsTrim n := by
  have hn : n ≠ "" := by
    intro he
    apply h
    rw [he]
    decide
  simp [jsAnd, hn]

theorem jsAnd_trim_of_trim_eq (n : String) (h : jsTrim n = "") :
    jsAnd n (jsTrim n) = "" := by
  by_cases hn : n = "" <;> simp [jsAnd, hn, h]

theorem lookupMap_mapSet_self (m : List (String × MetaEntry)) (k : String)
    (v : MetaEntry) : lookupMap (mapSet m k v) k = some v := by
  induction m with
  | nil => simp [mapSet, lookupMap]
  | cons p rest ih =>
    obtain ⟨k', v'⟩ := p
    by_cases h : k' = k <;> simp [mapSet, lookupMap, h, ih]

theorem mapSet_mapSet_self (m : List (String × MetaEntry)) (k : String)
    (v w : MetaEntry) : mapSet (mapSet m k v) k w = mapSet m k w := by
  induction m with
  | nil => simp [mapSet]
  | cons p rest ih =>
    obtain ⟨k', v'⟩ := p
    by_cases h : k' = k <;> simp [mapSet, h, ih]

theorem keys_mapSet_of_isSome (m : List (String × MetaEntry)) (k : String)
    (v : MetaEntry) (h : (lookupMap m k).isSome = true) :
    (mapSet m k v).map Prod.fst = m.map Prod.fst := by
  induction m with
  | nil => simp [lookupMap] at h
  | cons p rest ih =>
    obtain ⟨k', v'⟩ := p
    by_cases hk : k' = k
    · simp [mapSet, hk]
    · simp [lookupMap, hk] at h
      simp [mapSet, hk, ih h]

theorem length_le_mapSet (m : List (String × MetaEntry)) (k : String)
    (v : MetaEntry) : m.length ≤ (mapSet m k v).length := by
  induction m with
  | nil => simp [mapSet]
  | cons p rest ih =>
    obtain ⟨k', v'⟩ := p
    by_cases h : k' = k <;> simp [mapSet, h]
    omega

theorem lookupMap_mapSet_isSome (m : List (String × MetaEntry)) (k k' : String)
    (v : MetaEntry) (h : (lookupMap m k').isSome = true) :
    (lookupMap (mapSet m k v) k').isSome = true := by
  induction m with
  | nil => simp [lookupMap] at h
  | cons p rest ih =>
    obtain ⟨a, b⟩ := p
    by_cases hak : a = k
    · by_cases hkk : k = k'
      · simp [mapSet, lookupMap, hak, hkk]
      · simp [lookupMap, hak, hkk] at h
        simp [mapSet, lookupMap, hak, hkk, h]
    · by_cases hak' : a = k'
      · have hkk : k' ≠ k := by
          rw [← hak']
          exact hak
        simp [mapSet, lookupMap, hak, hak', hkk]
      · simp [lookupMap, hak'] at h
        simp [mapSet, lookupMap, hak, hak', ih h]

theorem pushCache_full (C : Nat) (acc : List Event) (e : Event)
    (h : C ≤ acc.length) : pushCache C acc e = (acc ++ [e]).tail := by
  have hc : C < (acc ++ [e]).length := by
    simp
    omega
  simp only [pushCache, if_pos hc]

theorem pushCache_room (C : Nat) (acc : List Event) (e : Event)
    (h : acc.length + 1 ≤ C) : pushCache C acc e = acc ++ [e] := by
  have hc : ¬ C < (acc ++ [e]).length := by
    simp
    omega
  simp only [pushCache, if_neg hc]

theorem foldl_pushCache (C : Nat) (evs : List Event) : ∀ acc : List Event,
    acc.length ≤ C →
    evs.foldl (pushCache C) acc =
      (acc ++ evs).drop (acc.length + evs.length - C) := by
  induction evs with
  | nil =>
    intro acc h
    simp [Nat.sub_eq_zero_of_le h]
  | cons e rest ih =>
    intro acc h
    rw [List.foldl_cons]
    by_cases hc : acc.length + 1 ≤ C
    · rw [pushCache_room C acc e hc]
      rw [ih (acc ++ [e]) (by simpa using hc)]
      have h4 : acc ++ e :: rest = (acc ++ [e]) ++ rest := by
        simp
      rw [h4]
      congr 1
      simp
      omega
    · have hac : acc.length = C := by omega
      rw [pushCache_full C acc e (by omega)]
      have hlen : ((acc ++ [e]).tail).length ≤ C := by
        simp
        omega
      rw [ih _ hlen]
      rw [← List.drop_one]
      have hsplit : ((acc ++ [e]) ++ rest).drop 1 = (acc ++ [e]).drop 1 ++ rest :=
        List.drop_append_of_le_length (by simp)
      rw [← hsplit, List.drop_drop]
      have h4 : acc ++ e :: rest = (acc ++ [e]) ++ rest := by
        simp
      rw [h4]
      congr 1
      simp
      omega

theorem enforceCap_of_le (limit : Nat) (mints queue : List String)
    (h : queue.length ≤ limit) : enforceCap limit mints queue = (mints, queue) := by
  unfold enforceCap
  rw [if_neg]
  omega

theorem enforceCap_queue_length (limit : Nat) (queue : List String) :
    ∀ mints : List String, (enforceCap limit mints queue).2.length ≤ limit := by
  induction queue with
  | nil =>
    intro mints
    unfold enforceCap
    simp
  | cons h t ih =>
    intro mints
    unfold enforceCap
    by_cases hc : limit < (h :: t).length
    · simp only [if_pos hc]
      exact ih (mints.erase h)
    · simp only [if_neg hc]
      simp at hc
      simpa using hc

theorem enforceCap_diag (limit : Nat) (q : List String) :
    enforceCap limit q q =
      (q.drop (q.length - limit), q.drop (q.length - limit)) := by
  induction q with
  | nil =>
    unfold enforceCap
    simp
  | cons h t ih =>
    unfold enforceCap
    by_cases hc : limit < (h :: t).length
    · simp only [if_pos hc]
      rw [List.erase_cons_head, ih]
      have hlt : limit ≤ t.length := by
        simp at hc
        omega
      have : (h :: t).length - limit = (t.length - limit) + 1 := by
        simp
        omega
      rw [this, List.drop_succ_cons]
    · simp only [if_neg hc]
      simp at hc
      have : (h :: t).length - limit = 0 := by
        simp
        omega
      rw [this]
      simp

theorem maybeSubscribeTrade_inv (limit : Nat) (st : List String × List String)
    (mint : String) (h1 : st.1 = st.2) (h2 : st.2.Nodup)
    (h3 : st.2.length ≤ limit) :
    (maybeSubscribeTrade limit st mint).1 = (maybeSubscribeTrade limit st mint).2 ∧
    (maybeSubscribeTrade limit st mint).2.Nodup ∧
    (maybeSubscribeTrade limit st mint).2.length ≤ limit := by
  unfold maybeSubscribeTrade
  by_cases hm : mint = ""
  · simp only [if_pos hm]
    exact ⟨h1, h2, h3⟩
  · simp only [if_neg hm]
    by_cases hin : mint ∈ st.1
    · simp only [if_pos hin]
      exact ⟨h1, h2, h3⟩
    · simp only [if_neg hin]
      rw [h1]
      rw [enforceCap_diag limit (st.2 ++ [mint])]
      refine ⟨rfl, ?_, ?_⟩
      · apply List.Nodup.sublist (List.drop_sublist _ _)
        have hnotin : mint ∉ st.2 := by
          rw [← h1]
          exact hin
        simp [List.nodup_append, h2, hnotin]
      · simp
        omega

theorem foldl_maybeSubscribeTrade_inv (limit : Nat) (calls : List String) :
    ∀ st : List String × List String, st.1 = st.2 → st.2.Nodup →
    st.2.length ≤ limit →
    (calls.foldl (maybeSubscribeTrade limit) st).1 =
      (calls.foldl (maybeSubscribeTrade limit) st).2 ∧
    (calls.foldl (maybeSubscribeTrade limit) st).2.Nodup ∧
    (calls.foldl (maybeSubscribeTrade limit) st).2.length ≤ limit := by
  induction calls with
  | nil =>
    intro st h1 h2 h3
    exact ⟨h1, h2, h3⟩
  | cons c rest ih =>
    intro st h1 h2 h3
    obtain ⟨g1, g2, g3⟩ := maybeSubscribeTrade_inv limit st c h1 h2 h3
    exact ih (maybeSubscribeTrade limit st c) g1 g2 g3

theorem maybeTrack_inv (limit : Nat) (threshold : ℚ)
    (st : List String × List String) (mint : String) (sol : ℚ)
    (h1 : st.1 = st.2) (h2 : st.2.Nodup) (h3 : st.2.length ≤ limit) :
    (maybeTrack limit threshold st mint sol).1 =
      (maybeTrack limit threshold st mint sol).2 ∧
    (maybeTrack limit threshold st mint sol).2.Nodup ∧
    (maybeTrack limit threshold st mint sol).2.length ≤ limit := by
  unfold maybeTrack
  by_cases hs : threshold ≤ sol
  · simp only [if_pos hs]
    exact maybeSubscribeTrade_inv limit st mint h1 h2 h3
  · simp only [if_neg hs]
    exact ⟨h1, h2, h3⟩

theorem foldl_maybeTrack_inv (limit : Nat) (threshold : ℚ)
    (calls : List (String × ℚ)) :
    ∀ st : List String × List String, st.1 = st.2 → st.2.Nodup →
    st.2.length ≤ limit →
    (calls.foldl (fun s c => maybeTrack limit threshold s c.1 c.2) st).2.length ≤
      limit := by
  induction calls with
  | nil =>
    intro st _ _ h3
    exact h3
  | cons c rest ih =>
    intro st h1 h2 h3
    obtain ⟨g1, g2, g3⟩ := maybeTrack_inv limit threshold st c.1 c.2 h1 h2 h3
    exact ih _ g1 g2 g3

theorem broadcastLoop_eq_filter (clients : List Client) :
    broadcastLoop clients =
      (clients.filter (fun c => c.readyStateOpen && !c.sendFails)).map Client.id := by
  induction clients with
  | nil => rfl
  | cons c rest ih =>
    by_cases h1 : c.readyStateOpen
    · by_cases h2 : c.sendFails
      · simp [broadcastLoop, h1, h2, ih]
      · simp [broadcastLoop, h1, h2, ih]
    · simp [broadcastLoop, h1, ih]

/-- Characterization of `rememberMeta` for a non-empty mint, with the inner
`|| ""` fallbacks already simplified away. -/
theorem rememberMeta_char (meta : List (String × MetaEntry)) (mint n s : String)
    (hm : mint ≠ "") :
    rememberMeta meta mint n s =
      (if jsOrS (jsAnd n (jsTrim n)) (getMeta meta mint).name = "" ∧
          jsOrS (jsAnd s (jsTrim s)) (getMeta meta mint).symbol = "" then meta
       else mapSet meta mint
         ⟨jsOrS (jsAnd n (jsTrim n)) (getMeta meta mint).name,
          jsOrS (jsAnd s (jsTrim s)) (getMeta meta mint).symbol⟩) := by
  simp only [rememberMeta, if_neg hm, getMeta, jsOrS_empty_right]

/-- A trim-nonempty incoming name overwrites the stored name. -/
theorem getMeta_rememberMeta_name (meta : List (String × MetaEntry))
    (mint n s : String) (hm : mint ≠ "") (hn : jsTrim n ≠ "") :
    (getMeta (rememberMeta meta mint n s) mint).name = jsTrim n := by
  rw [rememberMeta_char meta mint n s hm]
  have ha : jsOrS (jsAnd n (jsTrim n)) (getMeta meta mint).name = jsTrim n := by
    rw [jsAnd_trim_of_trim_ne n hn]
    exact jsOrS_of_ne _ _ hn
  rw [if_neg]
  · unfold getMeta
    rw [lookupMap_mapSet_self]
    simpa [getMeta] using ha
  · intro hc
    rw [ha] at hc
    exact hn hc.1

/-- A trim-nonempty incoming symbol overwrites the stored symbol. -/
theorem getMeta_rememberMeta_symbol (meta : List (String × MetaEntry))
    (mint n s : String) (hm : mint ≠ "") (hs : jsTrim s ≠ "") :
    (getMeta (rememberMeta meta mint n s) mint).symbol = jsTrim s := by
  rw [rememberMeta_char meta mint n s hm]
  have ha : jsOrS (jsAnd s (jsTrim s)) (getMeta meta mint).symbol = jsTrim s := by
    rw [jsAnd_trim_of_trim_ne s hs]
    exact jsOrS_of_ne _ _ hs
  rw [if_neg]
  · unfold getMeta
    rw [lookupMap_mapSet_self]
    simpa [getMeta] using ha
  · intro hc
    rw [ha] at hc
    exact hs hc.2

/-! ## Claim theorems -/

/-- C1: for every capacity `C` and every sequence of `C + k` pushed events,
the Rolling Event Cache holds exactly the last `C` events in arrival order,
and the snapshot a newly attached subscriber receives
(`cachedRows.slice(-CACHE_LIMIT)`) is those entries oldest-to-newest. -/
theorem rollingCache_holds_last (C k : Nat) (events : List Event)
    (h : events.length = C + k) :
    events.foldl (pushCache C) [] = events.drop k ∧
    (events.foldl (pushCache C) []).length = C ∧
    snapshotSlice (events.foldl (pushCache C) []) C = events.drop k := by
  have hbase := foldl_pushCache C events [] (by simp)
  simp only [List.nil_append, List.length_nil, Nat.zero_add] at hbase
  have hk : events.length - C = k := by omega
  rw [hk] at hbase
  refine ⟨hbase, ?_, ?_⟩
  · rw [hbase]
    simp
    omega
  · rw [hbase]
    unfold snapshotSlice
    by_cases hC : C = 0
    · simp [hC]
    · rw [if_neg hC]
      have hlen : (events.drop k).length = C := by
        simp
        omega
      rw [hlen]
      simp

/-- Sample event used by the concrete witnesses. -/
def mkEvent (i : Nat) : Event :=
  { kind := "create", t := i, mint := "", trader := "", side := "", sol := 0,
    name := "", symbol := "", raw := {} }

/-- Witness for C1: capacity 3, events E1..E4, cache and snapshot are
[E2, E3, E4]. -/
theorem rollingCache_holds_last_witness :
    [mkEvent 1, mkEvent 2, mkEvent 3, mkEvent 4].foldl (pushCache 3) [] =
      [mkEvent 2, mkEvent 3, mkEvent 4] ∧
    snapshotSlice
      ([mkEvent 1, mkEvent 2, mkEvent 3, mkEvent 4].foldl (pushCache 3) []) 3 =
      [mkEvent 2, mkEvent 3, mkEvent 4] := by
  obtain ⟨h1, _, h3⟩ := rollingCache_holds_last 3 1
    [mkEvent 1, mkEvent 2, mkEvent 3, mkEvent 4] (by decide)
  exact ⟨by rw [h1]; decide, by rw [h3]; decide⟩

/-- C2: the tracking decision is a no-op on an empty mint, an
already-tracked mint, or a creation SOL amount below the threshold;
otherwise it appends the mint at the end of the FIFO queue, at capacity the
earliest-tracked mint (the queue head) is evicted — strict FIFO, not
LRU — and after any sequence of calls the tracker holds at most
`TRADE_SUB_LIMIT` mints. -/
theorem maybeTrack_spec (limit : Nat) (threshold sol : ℚ)
    (st : List String × List String) (mint : String) :
    (mint = "" → maybeTrack limit threshold st mint sol = st) ∧
    (mint ∈ st.1 → maybeTrack limit threshold st mint sol = st) ∧
    (sol < threshold → maybeTrack limit threshold st mint sol = st) ∧
    (threshold ≤ sol → mint ≠ "" → mint ∉ st.1 → st.2.length < limit →
      (maybeTrack limit threshold st mint sol).2 = st.2 ++ [mint]) ∧
    (threshold ≤ sol → mint ≠ "" → mint ∉ st.1 → st.1 = st.2 →
      st.2.length = limit → 1 ≤ limit →
      (maybeTrack limit threshold st mint sol).1 = st.2.tail ++ [mint] ∧
      (maybeTrack limit threshold st mint sol).2 = st.2.tail ++ [mint]) ∧
    (∀ calls : List (String × ℚ),
      ((calls.foldl (fun s c => maybeTrack limit threshold s c.1 c.2)
        ([], []))).2.length ≤ limit) := by
  refine ⟨?_, ?_, ?_, ?_, ?_, ?_⟩
  · intro hm
    by_cases hs : threshold ≤ sol
    · simp [maybeTrack, maybeSubscribeTrade, hs, hm]
    · simp [maybeTrack, hs]
  · intro hin
    by_cases hs : threshold ≤ sol
    · by_cases hm : mint = ""
      · simp [maybeTrack, maybeSubscribeTrade, hs, hm]
      · simp [maybeTrack, maybeSubscribeTrade, hs, hm, hin]
    · simp [maybeTrack, hs]
  · intro hlt
    have hs : ¬ threshold ≤ sol := not_le.mpr hlt
    simp [maybeTrack, hs]
  · intro hs hm hin hlen
    have hcap : (st.2 ++ [mint]).length ≤ limit := by
      simp
      omega
    simp only [maybeTrack, if_pos hs, maybeSubscribeTrade, if_neg hm,
      if_neg hin, enforceCap_of_le limit _ _ hcap]
  · intro hs hm hin hdiag hlen hpos
    have hin2 : mint ∉ st.2 := hdiag ▸ hin
    have hstep : maybeTrack limit threshold st mint sol =
        enforceCap limit (st.2 ++ [mint]) (st.2 ++ [mint]) := by
      simp only [maybeTrack, if_pos hs, maybeSubscribeTrade, if_neg hm,
        hdiag, if_neg hin2]
    rw [hstep, enforceCap_diag]
    have hone : (st.2 ++ [mint]).length - limit = 1 := by
      simp
      omega
    rw [hone]
    have htail : (st.2 ++ [mint]).drop 1 = st.2.tail ++ [mint] := by
      rw [List.drop_append_of_le_length (by omega), List.drop_one]
    exact ⟨by rw [htail], by rw [htail]⟩
  · intro calls
    exact foldl_maybeTrack_inv limit threshold calls ([], []) rfl (by simp)
      (by simp)

/-- Witness for C2: limit 2, threshold 0; from tracked state {M1, M2}
tracking M3 evicts M1 and leaves the FIFO order [M2, M3]. -/
theorem maybeTrack_spec_witness :
    (maybeTrack 2 0 (["M1", "M2"], ["M1", "M2"]) "M3" 1).1 = ["M2", "M3"] ∧
    (maybeTrack 2 0 (["M1", "M2"], ["M1", "M2"]) "M3" 1).2 = ["M2", "M3"] ∧
    (maybeTrack 2 0 (["M1", "M2"], ["M1", "M2"]) "M4" (-1)) =
      (["M1", "M2"], ["M1", "M2"]) ∧
    (maybeTrack 2 0 (["M1"], ["M1"]) "M2" 1).2 = ["M1", "M2"] := by
  obtain ⟨h1, h2⟩ := (maybeTrack_spec 2 0 1 (["M1", "M2"], ["M1", "M2"])
    "M3").2.2.2.2.1 (by decide) (by decide) (by decide) rfl (by decide)
    (by decide)
  refine ⟨by rw [h1]; decide, by rw [h2]; decide, ?_, ?_⟩
  · exact (maybeTrack_spec 2 0 (-1) (["M1", "M2"], ["M1", "M2"]) "M4").2.2.1
      (by decide)
  · have h4 := (maybeTrack_spec 2 0 1 (["M1"], ["M1"]) "M2").2.2.2.1
      (by decide) (by decide) (by decide) (by decide)
    rw [h4]
    decide

/-- C10: after any sequence of `maybeSubscribeTrade` calls from the empty
state, the tracked-mint set equals the FIFO queue (same elements, same
order, no duplicates), so the `trackingMints` diagnostic count equals the
queue length and is bounded by `TRADE_SUB_LIMIT`. -/
theorem tracker_set_queue_agree (limit : Nat) (calls : List String) :
    (calls.foldl (maybeSubscribeTrade limit) ([], [])).1 =
      (calls.foldl (maybeSubscribeTrade limit) ([], [])).2 ∧
    (calls.foldl (maybeSubscribeTrade limit) ([], [])).2.Nodup ∧
    (calls.foldl (maybeSubscribeTrade limit) ([], [])).1.length =
      (calls.foldl (maybeSubscribeTrade limit) ([], [])).2.length ∧
    (calls.foldl (maybeSubscribeTrade limit) ([], [])).1.length ≤ limit := by
  obtain ⟨h1, h2, h3⟩ := foldl_maybeSubscribeTrade_inv limit calls ([], [])
    rfl (by simp) (by simp)
  exact ⟨h1, h2, by rw [h1], by rw [h1]; exact h3⟩

/-- C3 counterexample: upserting mint "A" again after "B" leaves "A" at its
original (oldest) position in the metadata cache — `Map.set` on an existing
key does not move the entry to the most-recently-used position, so an
upsert does not refresh recency. -/
theorem metaCache_recency_cex :
    (rememberMeta (rememberMeta (rememberMeta [] "A" "n1" "s1") "B" "n2" "s2")
      "A" "n3" "s3").map Prod.fst = ["A", "B"] ∧
    (rememberMeta (rememberMeta (rememberMeta [] "A" "n1" "s1") "B" "n2" "s2")
      "A" "n3" "s3").map Prod.fst ≠ ["B", "A"] ∧
    lookupMap (rememberMeta (rememberMeta (rememberMeta [] "A" "n1" "s1")
      "B" "n2" "s2") "A" "n3" "s3") "A" = some ⟨"n3", "s3"⟩ := by
  refine ⟨by decide, by decide, by decide⟩

/-- C3 amended: the metadata cache is unbounded and order-preserving — an
upsert never evicts any entry (every key present before is present after,
and the size never decreases), and an upsert of an existing mint updates
its value in place without refreshing its recency (the key order of the
cache is unchanged).  No `META_LIMIT` eviction exists in the code. -/
theorem metaCache_unbounded_no_recency (meta : List (String × MetaEntry))
    (mint n s : String) :
    meta.length ≤ (rememberMeta meta mint n s).length ∧
    (∀ k, (lookupMap meta k).isSome = true →
      (lookupMap (rememberMeta meta mint n s) k).isSome = true) ∧
    ((lookupMap meta mint).isSome = true →
      (rememberMeta meta mint n s).map Prod.fst = meta.map Prod.fst) := by
  unfold rememberMeta
  by_cases hm : mint = ""
  · simp [hm]
  · simp only [if_neg hm]
    split
    · exact ⟨le_refl _, fun k h => h, fun _ => rfl⟩
    · exact ⟨length_le_mapSet meta mint _,
        fun k h => lookupMap_mapSet_isSome meta mint k _ h,
        fun h => keys_mapSet_of_isSome meta mint _ h⟩

/-- Witness for C3 amended: re-upserting the only entry keeps the key order
and evicts nothing. -/
theorem metaCache_unbounded_no_recency_witness :
    (rememberMeta [("A", ⟨"x", "y"⟩)] "A" "z" "").map Prod.fst =
      [("A", (⟨"x", "y"⟩ : MetaEntry))].map Prod.fst ∧
    (lookupMap (rememberMeta [("A", ⟨"x", "y"⟩)] "A" "z" "") "A").isSome =
      true := by
  refine ⟨(metaCache_unbounded_no_recency [("A", ⟨"x", "y"⟩)] "A" "z" "").2.2
    (by decide), ?_⟩
  exact (metaCache_unbounded_no_recency [("A", ⟨"x", "y"⟩)] "A" "z" "").2.1
    "A" (by decide)

/-- C4: the Metadata Cache upsert is idempotent under repeated identical
input, a trim-nonempty incoming field overwrites the stored field (with its
trimmed value), and a trim-empty incoming field never erases the stored
name or symbol. -/
theorem rememberMeta_idempotent_no_erase (meta : List (String × MetaEntry))
    (mint n s : String) :
    rememberMeta (rememberMeta meta mint n s) mint n s =
      rememberMeta meta mint n s ∧
    (mint ≠ "" → jsTrim n ≠ "" →
      (getMeta (rememberMeta meta mint n s) mint).name = jsTrim n) ∧
    (mint ≠ "" → jsTrim s ≠ "" →
      (getMeta (rememberMeta meta mint n s) mint).symbol = jsTrim s) ∧
    (jsTrim n = "" →
      (getMeta (rememberMeta meta mint n s) mint).name =
        (getMeta meta mint).name) ∧
    (jsTrim s = "" →
      (getMeta (rememberMeta meta mint n s) mint).symbol =
        (getMeta meta mint).symbol) := by
  refine ⟨?_, fun hm hn => getMeta_rememberMeta_name meta mint n s hm hn,
    fun hm hs => getMeta_rememberMeta_symbol meta mint n s hm hs, ?_, ?_⟩
  · by_cases hm : mint = ""
    · simp [rememberMeta, hm]
    · rw [rememberMeta_char meta mint n s hm]
      by_cases hg : jsOrS (jsAnd n (jsTrim n)) (getMeta meta mint).name = "" ∧
          jsOrS (jsAnd s (jsTrim s)) (getMeta meta mint).symbol = ""
      · rw [if_pos hg, rememberMeta_char meta mint n s hm, if_pos hg]
      · rw [if_neg hg]
        rw [rememberMeta_char _ mint n s hm]
        have hget : getMeta (mapSet meta mint
            ⟨jsOrS (jsAnd n (jsTrim n)) (getMeta meta mint).name,
             jsOrS (jsAnd s (jsTrim s)) (getMeta meta mint).symbol⟩) mint =
            ⟨jsOrS (jsAnd n (jsTrim n)) (getMeta meta mint).name,
             jsOrS (jsAnd s (jsTrim s)) (getMeta meta mint).symbol⟩ := by
          unfold getMeta
          rw [lookupMap_mapSet_self]
          rfl
        rw [hget, jsOrS_idem, jsOrS_idem, if_neg hg, mapSet_mapSet_self]
  · intro hn
    by_cases hm : mint = ""
    · simp [rememberMeta, hm]
    · rw [rememberMeta_char meta mint n s hm]
      have ha : jsOrS (jsAnd n (jsTrim n)) (getMeta meta mint).name =
          (getMeta meta mint).name := by
        rw [jsAnd_trim_of_trim_eq n hn]
        simp [jsOrS]
      split
      · rfl
      · rw [ha]
        unfold getMeta
        rw [lookupMap_mapSet_self]
        rfl
  · intro hs
    by_cases hm : mint = ""
    · simp [rememberMeta, hm]
    · rw [rememberMeta_char meta mint n s hm]
      have ha : jsOrS (jsAnd s (jsTrim s)) (getMeta meta mint).symbol =
          (getMeta meta mint).symbol := by
        rw [jsAnd_trim_of_trim_eq s hs]
        simp [jsOrS]
      split
      · rfl
      · rw [ha]
        unfold getMeta
        rw [lookupMap_mapSet_self]
        rfl

/-- Witness for C4 at mint "M", name "Foo", symbol "FOO". -/
theorem rememberMeta_idempotent_no_erase_witness :
    rememberMeta (rememberMeta [] "M" "Foo" "FOO") "M" "Foo" "FOO" =
      rememberMeta [] "M" "Foo" "FOO" ∧
    (getMeta (rememberMeta [] "M" "Foo" "FOO") "M").name = jsTrim "Foo" ∧
    (getMeta (rememberMeta [("M", ⟨"Foo", "FOO"⟩)] "M" "" "") "M").name =
      (getMeta [("M", ⟨"Foo", "FOO"⟩)] "M").name := by
  refine ⟨(rememberMeta_idempotent_no_erase [] "M" "Foo" "FOO").1,
    (rememberMeta_idempotent_no_erase [] "M" "Foo" "FOO").2.1 (by decide)
      (by decide),
    (rememberMeta_idempotent_no_erase [("M", ⟨"Foo", "FOO"⟩)] "M" "" "").2.2.2.1
      (by decide)⟩

/-- C6 counterexample: a finite negative payload amount passes through the
safe-parse unchanged, so the normalized event's `solAmount` can be
negative. -/
theorem solAmount_negative_cex :
    (normCreate [] 0 { solAmount := some (NumVal.fin (-1)) }).2.sol = -1 ∧
    ¬ (0 ≤ (normCreate [] 0 { solAmount := some (NumVal.fin (-1)) }).2.sol) ∧
    safeNum (NumVal.fin (-1)) 0 = -1 := by
  refine ⟨by decide, by decide, by decide⟩

/-- C6 amended: a non-finite or unparsable payload amount coerces to 0, and
a finite amount passes through unchanged — so `solAmount` is non-negative
exactly when the payload amount is (a negative finite payload value yields
a negative `solAmount`). -/
theorem safeNum_spec (q fallback : ℚ) (msg : Record) :
    safeNum NumVal.nonfinite fallback = fallback ∧
    safeNum (NumVal.fin q) fallback = q ∧
    (0 ≤ q → 0 ≤ safeNum (NumVal.fin q) fallback) ∧
    (msg.solAmount = some NumVal.nonfinite → pickSol msg = 0) ∧
    (msg.solAmount = none → msg.sol = none → msg.amountSol = none →
      msg.amount = none → pickSol msg = 0) := by
  refine ⟨rfl, rfl, fun h => h, ?_, ?_⟩
  · intro h
    simp [pickSol, jsCoalesce, h]
  · intro h1 h2 h3 h4
    simp [pickSol, jsCoalesce, h1, h2, h3, h4]

/-- Witness for C6 amended. -/
theorem safeNum_spec_witness :
    safeNum NumVal.nonfinite 0 = 0 ∧
    (0 ≤ safeNum (NumVal.fin 2) 0) ∧
    pickSol { solAmount := some NumVal.nonfinite } = 0 := by
  refine ⟨(safeNum_spec 2 0 { solAmount := some NumVal.nonfinite }).1,
    (safeNum_spec 2 0 { solAmount := some NumVal.nonfinite }).2.2.1
      (by decide),
    (safeNum_spec 2 0 { solAmount := some NumVal.nonfinite }).2.2.2.1 rfl⟩

/-- C7: a frame that fails `JSON.parse` produces no event, leaves the
rolling event cache, the subscription tracker and the metadata cache
exactly as they were, and broadcasts nothing. -/
theorem malformedFrame_noop (cfg : Config) (st : ServerState) (now : Nat) :
    handleMessage cfg st now none = (st, []) ∧
    (handleMessage cfg st now none).1.cachedRows = st.cachedRows ∧
    (handleMessage cfg st now none).1.mintMeta = st.mintMeta ∧
    (handleMessage cfg st now none).1.sub = st.sub ∧
    (handleMessage cfg st now none).2 = [] :=
  ⟨rfl, rfl, rfl, rfl, rfl⟩

/-- C8: a Create event first writes its own (trimmed) name/symbol into the
metadata cache — authoritatively, overwriting whatever was stored — and a
subsequent Trade event for the same mint whose payload lacks name and
symbol is enriched from exactly that stored metadata. -/
theorem tradeEnrichment (meta : List (String × MetaEntry)) (now1 now2 : Nat)
    (msgC msgT : Record)
    (hmint : pickMint msgC ≠ "")
    (hn : jsTrim (pickName msgC) ≠ "")
    (hs : jsTrim (pickSymbol msgC) ≠ "")
    (hTmint : pickMint msgT = pickMint msgC)
    (hTn : pickName msgT = "")
    (hTs : pickSymbol msgT = "") :
    ((normCreate meta now1 msgC).2).kind = "create" ∧
    (getMeta (normCreate meta now1 msgC).1 (pickMint msgC)).name =
      jsTrim (pickName msgC) ∧
    (getMeta (normCreate meta now1 msgC).1 (pickMint msgC)).symbol =
      jsTrim (pickSymbol msgC) ∧
    ((normTrade (normCreate meta now1 msgC).1 now2 msgT).2).kind = "trade" ∧
    ((normTrade (normCreate meta now1 msgC).1 now2 msgT).2).name =
      jsTrim (pickName msgC) ∧
    ((normTrade (normCreate meta now1 msgC).1 now2 msgT).2).symbol =
      jsTrim (pickSymbol msgC) := by
  have hmeta1 : (normCreate meta now1 msgC).1 =
      rememberMeta meta (pickMint msgC) (pickName msgC) (pickSymbol msgC) := rfl
  have hname : (getMeta (normCreate meta now1 msgC).1 (pickMint msgC)).name =
      jsTrim (pickName msgC) := by
    rw [hmeta1]
    exact getMeta_rememberMeta_name meta _ _ _ hmint hn
  have hsymbol : (getMeta (normCreate meta now1 msgC).1 (pickMint msgC)).symbol =
      jsTrim (pickSymbol msgC) := by
    rw [hmeta1]
    exact getMeta_rememberMeta_symbol meta _ _ _ hmint hs
  refine ⟨rfl, hname, hsymbol, rfl, ?_, ?_⟩
  · show jsOrS (pickName msgT)
      (jsOrS (getMeta (normCreate meta now1 msgC).1 (pickMint msgT)).name "") =
      jsTrim (pickName msgC)
    rw [hTn, hTmint, hname]
    simp [jsOrS, hn]
  · show jsOrS (pickSymbol msgT)
      (jsOrS (getMeta (normCreate meta now1 msgC).1 (pickMint msgT)).symbol "") =
      jsTrim (pickSymbol msgC)
    rw [hTs, hTmint, hsymbol]
    simp [jsOrS, hs]

/-- Witness for C8 at the spec scenario: Create {M1, Foo, FOO} then Trade
{M1, txType buy} yields a trade row named Foo / FOO. -/
theorem tradeEnrichment_witness :
    ((normTrade (normCreate [] 0
        { mint := some "M1", name := some "Foo", symbol := some "FOO" }).1 1
        { mint := some "M1", txType := some "buy" }).2).name = "Foo" ∧
    ((normTrade (normCreate [] 0
        { mint := some "M1", name := some "Foo", symbol := some "FOO" }).1 1
        { mint := some "M1", txType := some "buy" }).2).symbol = "FOO" := by
  obtain ⟨-, -, -, -, h5, h6⟩ := tradeEnrichment [] 0 1
    { mint := some "M1", name := some "Foo", symbol := some "FOO" }
    { mint := some "M1", txType := some "buy" }
    (by decide) (by decide) (by decide) (by decide) (by decide) (by decide)
  exact ⟨by rw [h5]; decide, by rw [h6]; decide⟩

/-- C9 counterexample: a subscriber handle whose `send` throws is NOT
removed from the live set by `broadcast` — the exception is swallowed and
the handle stays attached, while the other open handle still receives the
envelope.  (Removal happens only in the separate close / error event
handlers.) -/
theorem broadcast_no_removal_cex :
    (broadcastClients [⟨0, true, true⟩, ⟨1, true, false⟩] (mkEvent 0)).1 =
      [⟨0, true, true⟩, ⟨1, true, false⟩] ∧
    (⟨0, true, true⟩ : Client) ∈
      (broadcastClients [⟨0, true, true⟩, ⟨1, true, false⟩] (mkEvent 0)).1 ∧
    ((broadcastClients [⟨0, true, true⟩, ⟨1, true, false⟩] (mkEvent 0)).2).map
      Prod.fst = [1] := by
  refine ⟨rfl, by decide, by decide⟩

/-- C9 amended: `publish` serializes the envelope once and delivers that
single envelope to every attached open handle whose send does not fail; a
send failure or a closed handle is skipped without aborting the loop and
without removing the handle — the live set is unchanged by `publish`, and a
handle is removed (alone, leaving the others attached) only by its own
close / error event handler. -/
theorem broadcast_spec (clients : List Client) (row : Event) (c : Client) :
    (broadcastClients clients row).1 = clients ∧
    (broadcastClients clients row).2 =
      (clients.filter (fun x => x.readyStateOpen && !x.sendFails)).map
        (fun x => (x.id, Envelope.mk "row" row)) ∧
    (c ∈ clients → c.readyStateOpen = true → c.sendFails = false →
      (c.id, Envelope.mk "row" row) ∈ (broadcastClients clients row).2) ∧
    (∀ d ∈ (broadcastClients clients row).2, d.2 = Envelope.mk "row" row) ∧
    onCloseClient clients c = clients.erase c := by
  have hloop : (broadcastClients clients row).2 =
      (clients.filter (fun x => x.readyStateOpen && !x.sendFails)).map
        (fun x => (x.id, Envelope.mk "row" row)) := by
    show ((broadcastLoop clients).map (fun i => (i, Envelope.mk "row" row))) = _
    rw [broadcastLoop_eq_filter, List.map_map]
    rfl
  refine ⟨rfl, hloop, ?_, ?_, rfl⟩
  · intro hc hopen hfail
    rw [hloop]
    refine List.mem_map.mpr ⟨c, ?_, rfl⟩
    rw [List.mem_filter]
    exact ⟨hc, by rw [hopen, hfail]; rfl⟩
  · intro d hd
    rw [hloop] at hd
    obtain ⟨x, -, hx⟩ := List.mem_map.mp hd
    rw [← hx]

/-- Witness for C9 amended: a single open, non-failing handle receives the
envelope. -/
theorem broadcast_spec_witness :
    ((1 : Nat), Envelope.mk "row" (mkEvent 0)) ∈
      (broadcastClients [⟨1, true, false⟩] (mkEvent 0)).2 ∧
    onCloseClient [⟨1, true, false⟩] ⟨1, true, false⟩ = [] := by
  refine ⟨(broadcast_spec [⟨1, true, false⟩] (mkEvent 0)
    ⟨1, true, false⟩).2.2.1 (by decide) rfl rfl, ?_⟩
  have h := (broadcast_spec [⟨1, true, false⟩] (mkEvent 0)
    ⟨1, true, false⟩).2.2.2.2
  rw [h]
  decide
